import Mathlib

/-!
# A shallow embedding of the `kvs` log-structured key-value store

This file embeds the core of the repository in Lean 4 and proves the
specification's testable properties about it.

* `Command`, `encode` — the log record type of `src/engine/kvs.rs`
  (serde-JSON serialized, one self-delimiting object per record).
* `Index` — the in-memory `HashMap<String, CommandPos>` modelled as an
  association list with at most one entry per key.
* `KvStoreInner` with `set` / `get` / `remove` / `compact` /
  `build_index` — the engine of `src/engine/kvs.rs`.  The log file is
  modelled record-by-record; byte offsets are recovered through the
  length of the JSON encoding, so extent arithmetic is preserved.
* `KvStore` — the simple non-compacting engine of `src/kv.rs`.
* `handle_client` — the per-connection request loop of `src/server.rs`.
* `get_engine` — the engine-selection check of `src/bin/kvs-server.rs`.
* `workerRun` — a worker of `src/thread_pool/shared_queue.rs`.

I/O failures (`KvsError::Io`) and codec failures on genuine file bytes
cannot arise over the idealized file model, so the embedded operations
fail only where the source logic itself fails (`KeyNotFound`,
`UnexpectedCommandType`, `EngineMismatch`).
-/

/-- The error type of `src/error.rs` (`KvsError`).  The Rust variants
`Io`, `Serde`, `Sled` and `Utf8` wrap an inner error whose text is
appended after a colon by the `Display` instance; the inner error is not
modelled. -/
inductive KvsError where
  | Io
  | Serde
  | Sled
  | Utf8
  | KeyNotFound
  | UnexpectedCommandType
  | EngineMismatch
  | StringError (msg : String)
  deriving DecidableEq, Repr

/-- The `Display` text of each error (`#[error(...)]` in `src/error.rs`);
for the wrapping variants the Rust message continues with `: <inner>`. -/
def KvsError.toMessage : KvsError → String
  | .Io => "IO error"
  | .Serde => "Serialization error"
  | .Sled => "Sled error"
  | .Utf8 => "UTF-8 conversion error"
  | .KeyNotFound => "Key not found"
  | .UnexpectedCommandType => "Unexpected command type"
  | .EngineMismatch => "Engine mismatch"
  | .StringError msg => msg

/-- The log record type (`enum Command` in `src/engine/kvs.rs` and
`src/kv.rs`): `Set { key, value }` or `Remove { key }`. -/
inductive Command where
  | Set (key value : String)
  | Remove (key : String)
  deriving DecidableEq, Repr

/-- The key a record names. -/
def cmdKey : Command → String
  | .Set k _ => k
  | .Remove k => k

/-- Whether a record is a `Set`. -/
def isSetCmd : Command → Bool
  | .Set _ _ => true
  | .Remove _ => false

/-! ## serde-JSON encoding of records

`serde_json::to_writer` emits one compact JSON object per record.  Only
its byte length matters to the engine (positions and `stale_bytes`), but
we spell out the exact encoding, including serde's string escaping. -/

/-- Lowercase hexadecimal digit, as in serde's escape table. -/
def hexDigit (n : Nat) : Char :=
  if n < 10 then Char.ofNat (48 + n) else Char.ofNat (87 + n)

/-- serde-JSON escaping of one character inside a string literal:
`"` and `\` get a backslash, the five short control escapes are used,
any other control character becomes `\u00XX`, everything else is kept. -/
def escapeChar (c : Char) : String :=
  if c.toNat = 34 then "\x5c\x22"
  else if c.toNat = 92 then "\x5c\x5c"
  else if c.toNat = 8 then "\x5cb"
  else if c.toNat = 9 then "\x5ct"
  else if c.toNat = 10 then "\x5cn"
  else if c.toNat = 12 then "\x5cf"
  else if c.toNat = 13 then "\x5cr"
  else if c.toNat < 32 then
    "\x5cu00" ++ String.singleton (hexDigit (c.toNat / 16))
      ++ String.singleton (hexDigit (c.toNat % 16))
  else String.singleton c

/-- A JSON string literal for `s`. -/
def jsonString (s : String) : String :=
  "\x22" ++ String.join (s.data.map escapeChar) ++ "\x22"

/-- The serde-JSON serialization of a record, exactly as
`serde_json::to_writer` produces it for `enum Command`. -/
def encode : Command → String
  | .Set key value =>
      "\x7b\x22Set\x22:\x7b\x22key\x22:" ++ jsonString key
        ++ ",\x22value\x22:" ++ jsonString value ++ "\x7d\x7d"
  | .Remove key =>
      "\x7b\x22Remove\x22:\x7b\x22key\x22:" ++ jsonString key ++ "\x7d\x7d"

/-- UTF-8 byte length of a string (the units in which the Rust code
measures file positions). -/
def byteLen (s : String) : Nat := (s.data.map Char.utf8Size).sum

/-- On-disk byte length of one serialized record. -/
def encLen (c : Command) : Nat := byteLen (encode c)

theorem byteLen_append (s t : String) :
    byteLen (s ++ t) = byteLen s + byteLen t := by
  simp [byteLen]

theorem encLen_pos (c : Command) : 0 < encLen c := by
  cases c with
  | Set key value =>
      have h : encLen (.Set key value)
          = byteLen "\x7b\x22Set\x22:\x7b\x22key\x22:"
            + (byteLen (jsonString key)
              + (byteLen ",\x22value\x22:"
                + (byteLen (jsonString value) + byteLen "\x7d\x7d"))) := by
        simp [encLen, encode, byteLen_append]
        omega
      have h0 : 0 < byteLen "\x7b\x22Set\x22:\x7b\x22key\x22:" := by decide
      omega
  | Remove key =>
      have h : encLen (.Remove key)
          = byteLen "\x7b\x22Remove\x22:\x7b\x22key\x22:"
            + (byteLen (jsonString key) + byteLen "\x7d\x7d") := by
        simp [encLen, encode, byteLen_append]
        omega
      have h0 : 0 < byteLen "\x7b\x22Remove\x22:\x7b\x22key\x22:" := by decide
      omega

/-! ## The in-memory index

`HashMap<String, CommandPos>` keeps exactly one entry per key; we model
it as an association list whose key list stays duplicate-free.  Its
iteration order (arbitrary for the Rust `HashMap`) is the list order. -/

/-- `struct CommandPos { pos, len }`: the on-disk extent of a record. -/
structure CommandPos where
  pos : Nat
  len : Nat
  deriving DecidableEq, Repr

/-- The engine's index type. -/
abbrev Index := List (String × CommandPos)

/-- `HashMap::get`. -/
def lookupIdx : Index → String → Option CommandPos
  | [], _ => none
  | e :: rest, k => if e.1 = k then some e.2 else lookupIdx rest k

/-- `HashMap::insert` (replace in place, or add). -/
def insertIdx : Index → String → CommandPos → Index
  | [], k, cp => [(k, cp)]
  | e :: rest, k, cp =>
      if e.1 = k then (k, cp) :: rest else e :: insertIdx rest k cp

/-- `HashMap::remove`. -/
def removeIdx : Index → String → Index
  | [], _ => []
  | e :: rest, k => if e.1 = k then rest else e :: removeIdx rest k

/-- Total byte length of the records the index points at (the live
records). -/
def liveBytes (idx : Index) : Nat := (idx.map (fun e => e.2.len)).sum

theorem lookupIdx_insert_self (idx : Index) (k : String) (cp : CommandPos) :
    lookupIdx (insertIdx idx k cp) k = some cp := by
  induction idx with
  | nil => simp [insertIdx, lookupIdx]
  | cons e rest ih =>
      by_cases h : e.1 = k
      · simp [insertIdx, lookupIdx, h]
      · simp [insertIdx, lookupIdx, h, ih]

theorem lookupIdx_insert_ne (idx : Index) (k k' : String) (cp : CommandPos)
    (h : k' ≠ k) : lookupIdx (insertIdx idx k cp) k' = lookupIdx idx k' := by
  have hkk : ¬(k = k') := fun hh => h hh.symm
  induction idx with
  | nil => simp [insertIdx, lookupIdx, hkk]
  | cons e rest ih =>
      by_cases he : e.1 = k
      · simp [insertIdx, lookupIdx, he, hkk, h]
      · by_cases he' : e.1 = k'
        · simp [insertIdx, lookupIdx, he, he', h]
        · simp [insertIdx, lookupIdx, he, he', ih]

theorem lookupIdx_remove_ne (idx : Index) (k k' : String)
    (h : k' ≠ k) : lookupIdx (removeIdx idx k) k' = lookupIdx idx k' := by
  induction idx with
  | nil => simp [removeIdx]
  | cons e rest ih =>
      have hkk : ¬(k = k') := fun hh => h hh.symm
      by_cases he : e.1 = k
      · simp [removeIdx, lookupIdx, he, hkk]
      · by_cases he' : e.1 = k'
        · simp [removeIdx, lookupIdx, he, he', h]
        · simp [removeIdx, lookupIdx, he, he', ih]

theorem lookupIdx_eq_none_of_not_mem (idx : Index) (k : String)
    (h : k ∉ idx.map Prod.fst) : lookupIdx idx k = none := by
  induction idx with
  | nil => rfl
  | cons e rest ih =>
      simp only [List.map_cons, List.mem_cons] at h
      push_neg at h
      have h1 : ¬(e.1 = k) := fun hh => h.1 hh.symm
      simp [lookupIdx, h1, ih h.2]

theorem mem_keys_of_lookupIdx (idx : Index) (k : String) (cp : CommandPos)
    (h : lookupIdx idx k = some cp) : k ∈ idx.map Prod.fst := by
  induction idx with
  | nil => simp [lookupIdx] at h
  | cons e rest ih =>
      by_cases he : e.1 = k
      · simp [he]
      · simp only [lookupIdx, he, if_false] at h
        simp [ih h]

theorem lookupIdx_remove_self (idx : Index) (k : String)
    (hnd : (idx.map Prod.fst).Nodup) :
    lookupIdx (removeIdx idx k) k = none := by
  induction idx with
  | nil => rfl
  | cons e rest ih =>
      simp only [List.map_cons, List.nodup_cons] at hnd
      by_cases he : e.1 = k
      · rw [removeIdx, if_pos he]
        exact lookupIdx_eq_none_of_not_mem rest k (he ▸ hnd.1)
      · simp [removeIdx, lookupIdx, he, ih hnd.2]

theorem removeIdx_of_lookup_none (idx : Index) (k : String)
    (h : lookupIdx idx k = none) : removeIdx idx k = idx := by
  induction idx with
  | nil => rfl
  | cons e rest ih =>
      by_cases he : e.1 = k
      · simp [lookupIdx, he] at h
      · simp only [lookupIdx, he, if_false] at h
        simp [removeIdx, he, ih h]

theorem mem_keys_insertIdx (idx : Index) (k x : String) (cp : CommandPos) :
    x ∈ (insertIdx idx k cp).map Prod.fst ↔
      x ∈ idx.map Prod.fst ∨ x = k := by
  induction idx with
  | nil => simp [insertIdx]
  | cons e rest ih =>
      by_cases he : e.1 = k
      · subst he
        rw [insertIdx, if_pos rfl]
        simp only [List.map_cons, List.mem_cons]
        tauto
      · rw [insertIdx, if_neg he]
        simp only [List.map_cons, List.mem_cons, ih]
        tauto

theorem nodup_insertIdx (idx : Index) (k : String) (cp : CommandPos)
    (hnd : (idx.map Prod.fst).Nodup) :
    ((insertIdx idx k cp).map Prod.fst).Nodup := by
  induction idx with
  | nil => simp [insertIdx]
  | cons e rest ih =>
      simp only [List.map_cons, List.nodup_cons] at hnd
      by_cases he : e.1 = k
      · rw [insertIdx, if_pos he]
        simp only [List.map_cons, List.nodup_cons]
        exact ⟨he ▸ hnd.1, hnd.2⟩
      · rw [insertIdx, if_neg he]
        simp only [List.map_cons, List.nodup_cons]
        refine ⟨?_, ih hnd.2⟩
        rw [mem_keys_insertIdx]
        rintro (h | h)
        · exact hnd.1 h
        · exact he h

theorem removeIdx_sublist (idx : Index) (k : String) :
    (removeIdx idx k).Sublist idx := by
  induction idx with
  | nil => simp [removeIdx]
  | cons e rest ih =>
      by_cases he : e.1 = k
      · rw [removeIdx, if_pos he]
        exact List.sublist_cons_self e rest
      · rw [removeIdx, if_neg he]
        exact ih.cons₂ e

theorem nodup_removeIdx (idx : Index) (k : String)
    (hnd : (idx.map Prod.fst).Nodup) :
    ((removeIdx idx k).map Prod.fst).Nodup :=
  ((removeIdx_sublist idx k).map Prod.fst).nodup hnd

theorem liveBytes_insert_none (idx : Index) (k : String) (cp : CommandPos)
    (h : lookupIdx idx k = none) :
    liveBytes (insertIdx idx k cp) = liveBytes idx + cp.len := by
  induction idx with
  | nil => simp [insertIdx, liveBytes]
  | cons e rest ih =>
      by_cases he : e.1 = k
      · simp [lookupIdx, he] at h
      · simp only [lookupIdx, he, if_false] at h
        rw [insertIdx, if_neg he]
        simp only [liveBytes, List.map_cons, List.sum_cons] at ih ⊢
        rw [ih h]
        omega

theorem liveBytes_insert_some (idx : Index) (k : String)
    (cp old : CommandPos) (h : lookupIdx idx k = some old) :
    liveBytes (insertIdx idx k cp) + old.len = liveBytes idx + cp.len := by
  induction idx with
  | nil => simp [lookupIdx] at h
  | cons e rest ih =>
      by_cases he : e.1 = k
      · rw [lookupIdx, if_pos he] at h
        have hold : e.2 = old := Option.some_inj.mp h
        rw [insertIdx, if_pos he]
        simp only [liveBytes, List.map_cons, List.sum_cons]
        rw [← hold]
        omega
      · rw [lookupIdx, if_neg he] at h
        rw [insertIdx, if_neg he]
        simp only [liveBytes, List.map_cons, List.sum_cons] at ih ⊢
        have := ih h
        omega

theorem liveBytes_remove (idx : Index) (k : String) (old : CommandPos)
    (h : lookupIdx idx k = some old) :
    liveBytes (removeIdx idx k) + old.len = liveBytes idx := by
  induction idx with
  | nil => simp [lookupIdx] at h
  | cons e rest ih =>
      by_cases he : e.1 = k
      · rw [lookupIdx, if_pos he] at h
        have hold : e.2 = old := Option.some_inj.mp h
        rw [removeIdx, if_pos he]
        simp only [liveBytes, List.map_cons, List.sum_cons]
        rw [← hold]
        omega
      · rw [lookupIdx, if_neg he] at h
        rw [removeIdx, if_neg he]
        simp only [liveBytes, List.map_cons, List.sum_cons] at ih ⊢
        have := ih h
        omega

theorem lookupIdx_of_mem_nodup (idx : Index) (e : String × CommandPos)
    (hnd : (idx.map Prod.fst).Nodup) (hmem : e ∈ idx) :
    lookupIdx idx e.1 = some e.2 := by
  induction idx with
  | nil => simp at hmem
  | cons d rest ih =>
      simp only [List.map_cons, List.nodup_cons] at hnd
      rcases List.mem_cons.mp hmem with h | h
      · subst h
        simp [lookupIdx]
      · have hne : ¬(d.1 = e.1) := by
          intro hEq
          exact hnd.1 (hEq ▸ List.mem_map_of_mem Prod.fst h)
        rw [lookupIdx, if_neg hne]
        exact ih hnd.2 h

/-! ## Log geometry

The log file is the concatenation of the encodings of its records.
`recAt log pos len` is the result of seeking to byte `pos`, reading
exactly `len` bytes and JSON-decoding them: it returns the record that
starts at byte `pos` when `len` is exactly its encoded length, and
`none` (a decode failure) otherwise. -/

/-- Byte length of the whole log file. -/
def logSize (log : List Command) : Nat := (log.map encLen).sum

theorem logSize_nil : logSize [] = 0 := rfl

theorem logSize_cons (c : Command) (rest : List Command) :
    logSize (c :: rest) = encLen c + logSize rest := by
  simp [logSize]

theorem logSize_append (l1 l2 : List Command) :
    logSize (l1 ++ l2) = logSize l1 + logSize l2 := by
  simp [logSize]

/-- Decode the record occupying exactly the extent `(pos, len)`. -/
def recAt : List Command → Nat → Nat → Option Command
  | [], _, _ => none
  | c :: rest, pos, len =>
      if pos = 0 then (if len = encLen c then some c else none)
      else if encLen c ≤ pos then recAt rest (pos - encLen c) len
      else none

theorem recAt_append_some (l1 l2 : List Command) (pos len : Nat)
    (c : Command) (h : recAt l1 pos len = some c) :
    recAt (l1 ++ l2) pos len = some c := by
  induction l1 generalizing pos with
  | nil => simp [recAt] at h
  | cons d rest ih =>
      by_cases hp : pos = 0
      · subst hp
        by_cases hl : len = encLen d
        · rw [recAt, if_pos rfl, if_pos hl] at h
          rw [List.cons_append, recAt, if_pos rfl, if_pos hl]
          exact h
        · rw [recAt, if_pos rfl, if_neg hl] at h
          exact absurd h (by simp)
      · by_cases hle : encLen d ≤ pos
        · rw [recAt, if_neg hp, if_pos hle] at h
          rw [List.cons_append, recAt, if_neg hp, if_pos hle]
          exact ih _ h
        · rw [recAt, if_neg hp, if_neg hle] at h
          exact absurd h (by simp)

theorem recAt_append_self (pre : List Command) (c : Command)
    (tail : List Command) :
    recAt (pre ++ c :: tail) (logSize pre) (encLen c) = some c := by
  induction pre with
  | nil => simp [recAt, logSize]
  | cons d rest ih =>
      have hd := encLen_pos d
      have hpos : ¬(encLen d + logSize rest = 0) := by omega
      have hle : encLen d ≤ encLen d + logSize rest := Nat.le_add_right _ _
      rw [List.cons_append, logSize_cons]
      rw [recAt, if_neg hpos, if_pos hle, Nat.add_sub_cancel_left]
      exact ih

/-! ## The compacting engine (`src/engine/kvs.rs`)

`KvStoreInner` holds the log (the contents of `wal.log`), the index and
`stale_bytes`.  The writer's position is the file length (invariant I2
of the spec), so `writer.stream_position()` is `logSize log`.  The
reader's buffered cursor has no observable effect and is not part of
the state. -/

/-- `const COMPACTION_THRESHOLD: u64 = 1024 * 1024`. -/
def COMPACTION_THRESHOLD : Nat := 1024 * 1024

/-- `struct KvStoreInner` (the `path` and the raw file handles are
subsumed by `log`). -/
structure KvStoreInner where
  log : List Command
  index : Index
  stale_bytes : Nat
  deriving DecidableEq, Repr

/-- The scanning loop of `KvStoreInner::build_index`: `pos` is the byte
offset of the next record, `idx`/`sb` accumulate the index and
`stale_bytes`.  A `Set` inserts and counts a superseded record as
stale; a `Remove` drops the entry, counts it as stale if it existed,
and always counts its own bytes as stale. -/
def buildGo (pos : Nat) (idx : Index) (sb : Nat) :
    List Command → Index × Nat
  | [] => (idx, sb)
  | c :: rest =>
      match c with
      | .Set k _ =>
          buildGo (pos + encLen c)
            (insertIdx idx k ⟨pos, encLen c⟩)
            (sb + (match lookupIdx idx k with
                   | some old => old.len
                   | none => 0)) rest
      | .Remove k =>
          buildGo (pos + encLen c)
            (removeIdx idx k)
            (sb + (match lookupIdx idx k with
                   | some old => old.len
                   | none => 0) + encLen c) rest

/-- `KvStoreInner::build_index`: scan the log from offset 0. -/
def build_index (log : List Command) : Index × Nat := buildGo 0 [] 0 log

/-- The loop body of `KvStoreInner::compact`, iterating over the index
entries: read each entry's extent from the old log, append the bytes at
the compaction writer's position `base` and record the new extent.  The
`none` branch (an extent that does not decode, impossible in a
reachable state — invariant I1 is proved below) skips the entry. -/
def compactGo (oldLog : List Command) (base : Nat) :
    Index → List Command × Index
  | [] => ([], [])
  | e :: rest =>
      match recAt oldLog e.2.pos e.2.len with
      | some c =>
          let r := compactGo oldLog (base + encLen c) rest
          (c :: r.1, (e.1, ⟨base, encLen c⟩) :: r.2)
      | none => compactGo oldLog base rest

/-- `KvStoreInner::compact`: rewrite the log to the live records only,
swap in the rebuilt index, reset `stale_bytes`. -/
def KvStoreInner.compact (s : KvStoreInner) : KvStoreInner :=
  let r := compactGo s.log 0 s.index
  { log := r.1, index := r.2, stale_bytes := 0 }

/-- `KvStoreInner::set` before the compaction check: append the
serialized `Set`, install the new extent, count a superseded record as
stale. -/
def KvStoreInner.setCore (s : KvStoreInner) (key value : String) :
    KvStoreInner :=
  let cmd := Command.Set key value
  let pos := logSize s.log
  { log := s.log ++ [cmd]
    index := insertIdx s.index key ⟨pos, encLen cmd⟩
    stale_bytes := s.stale_bytes + (match lookupIdx s.index key with
                                    | some old => old.len
                                    | none => 0) }

/-- `KvStoreInner::set` (always succeeds over the idealized file). -/
def KvStoreInner.set (s : KvStoreInner) (key value : String) :
    KvStoreInner :=
  let s' := s.setCore key value
  if s'.stale_bytes > COMPACTION_THRESHOLD then s'.compact else s'

/-- `KvStoreInner::get`: look up the extent, read and decode it.  The
decoded record must be a `Set`, else `UnexpectedCommandType`; a decode
failure would be a `Serde` error. -/
def KvStoreInner.get (s : KvStoreInner) (key : String) :
    Except KvsError (Option String) :=
  match lookupIdx s.index key with
  | some cp =>
      match recAt s.log cp.pos cp.len with
      | some (.Set _ value) => .ok (some value)
      | some (.Remove _) => .error .UnexpectedCommandType
      | none => .error .Serde
  | none => .ok none

/-- The successful branch of `KvStoreInner::remove` before the
compaction check: append the `Remove` record, count the removed entry
and the tombstone itself as stale, drop the entry. -/
def KvStoreInner.removeStep (s : KvStoreInner) (key : String) :
    KvStoreInner :=
  let cmd := Command.Remove key
  { log := s.log ++ [cmd]
    index := removeIdx s.index key
    stale_bytes := s.stale_bytes + (match lookupIdx s.index key with
                                    | some old => old.len + encLen cmd
                                    | none => 0) }

/-- `KvStoreInner::remove`: `KeyNotFound` when the index lacks the key,
otherwise append a tombstone and maybe compact. -/
def KvStoreInner.remove (s : KvStoreInner) (key : String) :
    Except KvsError KvStoreInner :=
  if (lookupIdx s.index key).isSome then
    let s' := s.removeStep key
    .ok (if s'.stale_bytes > COMPACTION_THRESHOLD then s'.compact else s')
  else .error .KeyNotFound

/-- `KvStore::open` on a directory whose `wal.log` holds `log`:
rebuild the index and the stale counter from the log. -/
def openLog (log : List Command) : KvStoreInner :=
  { log := log
    index := (build_index log).1
    stale_bytes := (build_index log).2 }

/-- `KvStore::open` on a fresh directory (empty `wal.log`). -/
def openFresh : KvStoreInner := openLog []

/-- Dropping the engine and calling `KvStore::open` again on the same
directory: the log is what survives; index and counter are rebuilt. -/
def reopen (s : KvStoreInner) : KvStoreInner := openLog s.log

/-! ## Client-visible operations and reachable states -/

/-- One engine operation of a workload. -/
inductive Op where
  | set (key value : String)
  | remove (key : String)
  | get (key : String)
  deriving DecidableEq, Repr

/-- The key an operation touches. -/
def opKey : Op → String
  | .set k _ => k
  | .remove k => k
  | .get k => k

/-- Execute one operation for its state effect; a failed `remove`
leaves the state unchanged, `get` only reads. -/
def applyOp (s : KvStoreInner) : Op → KvStoreInner
  | .set k v => s.set k v
  | .remove k =>
      match s.remove k with
      | .ok s' => s'
      | .error _ => s
  | .get _ => s

/-- Run a workload left to right. -/
def runOps (s : KvStoreInner) (ops : List Op) : KvStoreInner :=
  ops.foldl applyOp s

/-- States the engine can reach from a fresh directory. -/
def Reachable (s : KvStoreInner) : Prop := ∃ ops, s = runOps openFresh ops

theorem runOps_append (s : KvStoreInner) (l1 l2 : List Op) :
    runOps s (l1 ++ l2) = runOps (runOps s l1) l2 :=
  List.foldl_append ..

theorem runOps_cons (s : KvStoreInner) (op : Op) (ops : List Op) :
    runOps s (op :: ops) = runOps (applyOp s op) ops := rfl

/-! ## Replaying the log: `build_index` lemmas -/

theorem buildGo_append (l1 l2 : List Command) : ∀ (pos : Nat) (idx : Index)
    (sb : Nat), buildGo pos idx sb (l1 ++ l2)
      = buildGo (pos + logSize l1) (buildGo pos idx sb l1).1
          (buildGo pos idx sb l1).2 l2 := by
  induction l1 with
  | nil =>
      intro pos idx sb
      simp [buildGo, logSize_nil]
  | cons c rest ih =>
      intro pos idx sb
      cases c with
      | Set k v =>
          rw [List.cons_append, buildGo, buildGo, ih, logSize_cons,
            ← Nat.add_assoc]
      | Remove k =>
          rw [List.cons_append, buildGo, buildGo, ih, logSize_cons,
            ← Nat.add_assoc]

theorem build_index_snoc_set (log : List Command) (k v : String) :
    build_index (log ++ [.Set k v])
      = (insertIdx (build_index log).1 k
           ⟨logSize log, encLen (.Set k v)⟩,
         (build_index log).2
           + (match lookupIdx (build_index log).1 k with
              | some old => old.len
              | none => 0)) := by
  rw [build_index, buildGo_append]
  simp [buildGo, build_index]

theorem build_index_snoc_remove (log : List Command) (k : String) :
    build_index (log ++ [.Remove k])
      = (removeIdx (build_index log).1 k,
         (build_index log).2
           + (match lookupIdx (build_index log).1 k with
              | some old => old.len
              | none => 0) + encLen (.Remove k)) := by
  rw [build_index, buildGo_append]
  simp [buildGo, build_index]

theorem insertIdx_append_of_lookup_none (idx : Index) (k : String)
    (cp : CommandPos) (h : lookupIdx idx k = none) :
    insertIdx idx k cp = idx ++ [(k, cp)] := by
  induction idx with
  | nil => rfl
  | cons e rest ih =>
      by_cases he : e.1 = k
      · simp [lookupIdx, he] at h
      · rw [lookupIdx, if_neg he] at h
        rw [insertIdx, if_neg he, ih h, List.cons_append]

theorem lookupIdx_append (l1 l2 : Index) (k : String) :
    lookupIdx (l1 ++ l2) k
      = match lookupIdx l1 k with
        | some cp => some cp
        | none => lookupIdx l2 k := by
  induction l1 with
  | nil => simp [lookupIdx]
  | cons e rest ih =>
      by_cases he : e.1 = k
      · simp [lookupIdx, he]
      · rw [List.cons_append, lookupIdx, if_neg he, ih, lookupIdx,
          if_neg he]

/-! ## Compaction lemmas -/

theorem compactGo_records (oldLog : List Command) : ∀ (entries : Index)
    (base : Nat), (compactGo oldLog base entries).1
      = entries.filterMap (fun e => recAt oldLog e.2.pos e.2.len) := by
  intro entries
  induction entries with
  | nil => intro base; rfl
  | cons e rest ih =>
      intro base
      cases hc : recAt oldLog e.2.pos e.2.len with
      | some c => simp [compactGo, hc, ih]
      | none => simp [compactGo, hc, ih]

theorem compactGo_keys (oldLog : List Command) : ∀ (entries : Index)
    (base : Nat),
    (∀ e ∈ entries, (recAt oldLog e.2.pos e.2.len).isSome = true) →
    (compactGo oldLog base entries).2.map Prod.fst
      = entries.map Prod.fst := by
  intro entries
  induction entries with
  | nil => intro base _; rfl
  | cons e rest ih =>
      intro base H
      have He : (recAt oldLog e.2.pos e.2.len).isSome = true :=
        H e (by simp)
      obtain ⟨c, hc⟩ := Option.isSome_iff_exists.mp He
      have Hrest : ∀ e' ∈ rest, (recAt oldLog e'.2.pos e'.2.len).isSome
          = true := fun e' he' => H e' (by simp [he'])
      simp [compactGo, hc, ih _ Hrest]

theorem compactGo_size (oldLog : List Command) : ∀ (entries : Index)
    (base : Nat), logSize (compactGo oldLog base entries).1
      = liveBytes (compactGo oldLog base entries).2 := by
  intro entries
  induction entries with
  | nil => intro base; rfl
  | cons e rest ih =>
      intro base
      cases hc : recAt oldLog e.2.pos e.2.len with
      | some c => simp [compactGo, hc, logSize_cons, liveBytes, ih]
      | none => simp [compactGo, hc, ih, liveBytes]

theorem compactGo_lookup_none (oldLog : List Command) : ∀ (entries : Index)
    (base : Nat) (k : String), lookupIdx entries k = none →
    lookupIdx (compactGo oldLog base entries).2 k = none := by
  intro entries
  induction entries with
  | nil => intro base k _; rfl
  | cons e rest ih =>
      intro base k h
      by_cases he : e.1 = k
      · simp [lookupIdx, he] at h
      · rw [lookupIdx, if_neg he] at h
        cases hc : recAt oldLog e.2.pos e.2.len with
        | some c =>
            simp only [compactGo, hc]
            rw [lookupIdx, if_neg he]
            exact ih _ _ h
        | none =>
            simp only [compactGo, hc]
            exact ih _ _ h

theorem compactGo_lookup_some (oldLog : List Command) : ∀ (entries : Index)
    (pre : List Command) (k : String) (cp : CommandPos),
    (∀ e ∈ entries, (recAt oldLog e.2.pos e.2.len).isSome = true) →
    lookupIdx entries k = some cp →
    ∃ c p, recAt oldLog cp.pos cp.len = some c ∧
      lookupIdx (compactGo oldLog (logSize pre) entries).2 k
        = some ⟨p, encLen c⟩ ∧
      recAt (pre ++ (compactGo oldLog (logSize pre) entries).1) p
        (encLen c) = some c := by
  intro entries
  induction entries with
  | nil => intro pre k cp _ h; simp [lookupIdx] at h
  | cons e rest ih =>
      intro pre k cp H h
      have He : (recAt oldLog e.2.pos e.2.len).isSome = true :=
        H e (by simp)
      obtain ⟨c0, hc0⟩ := Option.isSome_iff_exists.mp He
      have Hrest : ∀ e' ∈ rest, (recAt oldLog e'.2.pos e'.2.len).isSome
          = true := fun e' he' => H e' (by simp [he'])
      by_cases hek : e.1 = k
      · rw [lookupIdx, if_pos hek] at h
        have hcp : e.2 = cp := Option.some_inj.mp h
        refine ⟨c0, logSize pre, hcp ▸ hc0, ?_, ?_⟩
        · simp only [compactGo, hc0]
          rw [lookupIdx, if_pos hek]
        · simp only [compactGo, hc0]
          exact recAt_append_self pre c0 _
      · rw [lookupIdx, if_neg hek] at h
        have hsz : logSize (pre ++ [c0]) = logSize pre + encLen c0 := by
          rw [logSize_append, logSize_cons, logSize_nil]
          omega
        obtain ⟨c, p, h1, h2, h3⟩ := ih (pre ++ [c0]) k cp Hrest h
        rw [hsz] at h2 h3
        refine ⟨c, p, h1, ?_, ?_⟩
        · simp only [compactGo, hc0]
          rw [lookupIdx, if_neg hek]
          exact h2
        · simp only [compactGo, hc0]
          rw [List.append_assoc] at h3
          simpa using h3

theorem buildGo_compactGo (oldLog : List Command) : ∀ (entries : Index)
    (pre : List Command) (I0 : Index) (sb : Nat),
    (∀ e ∈ entries, ∃ v, recAt oldLog e.2.pos e.2.len
      = some (.Set e.1 v)) →
    (∀ e ∈ entries, lookupIdx I0 e.1 = none) →
    (entries.map Prod.fst).Nodup →
    buildGo (logSize pre) I0 sb (compactGo oldLog (logSize pre) entries).1
      = (I0 ++ (compactGo oldLog (logSize pre) entries).2, sb) := by
  intro entries
  induction entries with
  | nil => intro pre I0 sb _ _ _; simp [compactGo, buildGo]
  | cons e rest ih =>
      intro pre I0 sb H Hdisj Hnd
      obtain ⟨v, hv⟩ := H e (by simp)
      simp only [List.map_cons, List.nodup_cons] at Hnd
      have Hrest : ∀ e' ∈ rest, ∃ v', recAt oldLog e'.2.pos e'.2.len
          = some (.Set e'.1 v') := fun e' he' => H e' (by simp [he'])
      have hI0e : lookupIdx I0 e.1 = none := Hdisj e (by simp)
      have hsz : logSize (pre ++ [Command.Set e.1 v])
          = logSize pre + encLen (.Set e.1 v) := by
        rw [logSize_append, logSize_cons, logSize_nil]
        omega
      have Hdisj' : ∀ e' ∈ rest,
          lookupIdx (I0 ++ [(e.1, (⟨logSize pre, encLen (.Set e.1 v)⟩
            : CommandPos))]) e'.1 = none := by
        intro e' he'
        have hne : ¬(e.1 = e'.1) := by
          intro hEq
          exact Hnd.1 (hEq ▸ List.mem_map_of_mem Prod.fst he')
        rw [lookupIdx_append, Hdisj e' (by simp [he'])]
        simp [lookupIdx, hne]
      have := ih (pre ++ [Command.Set e.1 v])
        (I0 ++ [(e.1, ⟨logSize pre, encLen (.Set e.1 v)⟩)]) sb
        Hrest Hdisj' Hnd.2
      rw [hsz] at this
      simp only [compactGo, hv, buildGo, hI0e]
      rw [insertIdx_append_of_lookup_none _ _ _ hI0e]
      simp only [Nat.add_zero]
      rw [this, List.append_assoc]
      simp

/-! ## The engine invariant

`Good` packages the spec's invariants I1 (every index entry frames a
matching `Set`), key uniqueness, I5 (replaying the log reproduces index
and `stale_bytes`) and the byte accounting
`logSize = liveBytes + stale_bytes`.  `WF` adds that `stale_bytes`
stays at or below the compaction threshold, which holds between
operations because `set` and `remove` compact whenever it is
exceeded. -/

structure Good (s : KvStoreInner) : Prop where
  frames : ∀ k cp, lookupIdx s.index k = some cp →
    ∃ v, recAt s.log cp.pos cp.len = some (.Set k v)
  nodup : (s.index.map Prod.fst).Nodup
  rebuild : build_index s.log = (s.index, s.stale_bytes)
  size : logSize s.log = liveBytes s.index + s.stale_bytes

def WF (s : KvStoreInner) : Prop :=
  Good s ∧ s.stale_bytes ≤ COMPACTION_THRESHOLD

theorem good_openFresh : Good openFresh := by
  refine ⟨?_, ?_, rfl, rfl⟩
  · intro k cp h
    simp [openFresh, openLog, build_index, buildGo, lookupIdx] at h
  · simp [openFresh, openLog, build_index, buildGo]

theorem wf_openFresh : WF openFresh :=
  ⟨good_openFresh, Nat.zero_le _⟩

theorem good_mem_frames (s : KvStoreInner) (hg : Good s) :
    ∀ e ∈ s.index, ∃ v, recAt s.log e.2.pos e.2.len
      = some (.Set e.1 v) := by
  intro e he
  exact hg.frames e.1 e.2 (lookupIdx_of_mem_nodup s.index e hg.nodup he)

theorem good_mem_isSome (s : KvStoreInner) (hg : Good s) :
    ∀ e ∈ s.index, (recAt s.log e.2.pos e.2.len).isSome = true := by
  intro e he
  obtain ⟨v, hv⟩ := good_mem_frames s hg e he
  simp [hv]

/-! ### Compaction preserves the invariant and all reads -/

theorem compact_lookup_none (s : KvStoreInner) (k : String)
    (h : lookupIdx s.index k = none) :
    lookupIdx s.compact.index k = none :=
  compactGo_lookup_none s.log s.index 0 k h

theorem compact_get (s : KvStoreInner) (hg : Good s) (k : String) :
    s.compact.get k = s.get k := by
  cases hl : lookupIdx s.index k with
  | none =>
      rw [KvStoreInner.get, KvStoreInner.get, hl,
        compact_lookup_none s k hl]
  | some cp =>
      obtain ⟨v, hv⟩ := hg.frames k cp hl
      have hsome := good_mem_isSome s hg
      obtain ⟨c, p, h1, h2, h3⟩ :=
        compactGo_lookup_some s.log s.index [] k cp hsome hl
      have hc : c = .Set k v := by
        rw [hv] at h1
        exact (Option.some_inj.mp h1).symm
      subst hc
      simp only [List.nil_append] at h3
      have h2' : lookupIdx s.compact.index k
          = some ⟨p, encLen (Command.Set k v)⟩ := h2
      have h3' : recAt s.compact.log p (encLen (Command.Set k v))
          = some (Command.Set k v) := h3
      have hL : s.compact.get k = .ok (some v) := by
        simp only [KvStoreInner.get, h2', h3']
      have hR : s.get k = .ok (some v) := by
        simp only [KvStoreInner.get, hl, hv]
      rw [hL, hR]

theorem good_compact (s : KvStoreInner) (hg : Good s) :
    Good s.compact := by
  have hsome := good_mem_isSome s hg
  refine ⟨?_, ?_, ?_, ?_⟩
  · intro k cp' hl'
    cases hl : lookupIdx s.index k with
    | none => rw [compact_lookup_none s k hl] at hl'; cases hl'
    | some cp =>
        obtain ⟨v, hv⟩ := hg.frames k cp hl
        obtain ⟨c, p, h1, h2, h3⟩ :=
          compactGo_lookup_some s.log s.index [] k cp hsome hl
        have hc : c = .Set k v := by
          rw [hv] at h1
          exact (Option.some_inj.mp h1).symm
        subst hc
        simp only [List.nil_append] at h3
        have : cp' = ⟨p, encLen (Command.Set k v)⟩ := by
          have := h2.symm.trans hl'
          exact (Option.some_inj.mp this).symm
        subst this
        exact ⟨v, h3⟩
  · rw [show s.compact.index = (compactGo s.log 0 s.index).2 from rfl]
    rw [compactGo_keys s.log s.index 0 hsome]
    exact hg.nodup
  · have := buildGo_compactGo s.log s.index [] [] 0
      (good_mem_frames s hg) (fun e _ => rfl) hg.nodup
    simpa [build_index] using this
  · rw [show s.compact.log = (compactGo s.log 0 s.index).1 from rfl]
    rw [compactGo_size s.log s.index 0]
    rfl

theorem wf_compact (s : KvStoreInner) (hg : Good s) : WF s.compact :=
  ⟨good_compact s hg, Nat.zero_le _⟩

/-! ### `set` preserves the invariant -/

theorem good_setCore (s : KvStoreInner) (hg : Good s) (k v : String) :
    Good (s.setCore k v) := by
  refine ⟨?_, ?_, ?_, ?_⟩
  · intro k' cp hl
    by_cases hk : k' = k
    · subst hk
      rw [show (s.setCore k' v).index
          = insertIdx s.index k' ⟨logSize s.log, encLen (.Set k' v)⟩
          from rfl, lookupIdx_insert_self] at hl
      have hcp : cp = ⟨logSize s.log, encLen (.Set k' v)⟩ :=
        (Option.some_inj.mp hl).symm
      subst hcp
      exact ⟨v, recAt_append_self s.log (.Set k' v) []⟩
    · rw [show (s.setCore k v).index
          = insertIdx s.index k ⟨logSize s.log, encLen (.Set k v)⟩
          from rfl, lookupIdx_insert_ne s.index k k' _ hk] at hl
      obtain ⟨v', hv'⟩ := hg.frames k' cp hl
      exact ⟨v', recAt_append_some s.log [.Set k v] cp.pos cp.len _ hv'⟩
  · exact nodup_insertIdx s.index k _ hg.nodup
  · show build_index (s.log ++ [.Set k v]) = _
    rw [build_index_snoc_set, hg.rebuild]
    simp [KvStoreInner.setCore]
  · cases hl : lookupIdx s.index k with
    | none =>
        have h1 : liveBytes (insertIdx s.index k
            ⟨logSize s.log, encLen (.Set k v)⟩)
            = liveBytes s.index + encLen (.Set k v) :=
          liveBytes_insert_none s.index k _ hl
        have h2 := hg.size
        simp only [KvStoreInner.setCore, hl, logSize_append, logSize_cons,
          logSize_nil, h1]
        omega
    | some old =>
        have h1 : liveBytes (insertIdx s.index k
            ⟨logSize s.log, encLen (.Set k v)⟩) + old.len
            = liveBytes s.index + encLen (.Set k v) :=
          liveBytes_insert_some s.index k _ old hl
        have h2 := hg.size
        simp only [KvStoreInner.setCore, hl, logSize_append, logSize_cons,
          logSize_nil]
        omega

theorem wf_set (s : KvStoreInner) (hw : WF s) (k v : String) :
    WF (s.set k v) := by
  have hg' := good_setCore s hw.1 k v
  rw [KvStoreInner.set]
  by_cases hthr : (s.setCore k v).stale_bytes > COMPACTION_THRESHOLD
  · rw [if_pos hthr]
    exact wf_compact _ hg'
  · rw [if_neg hthr]
    exact ⟨hg', by omega⟩

/-! ### `remove` preserves the invariant -/

theorem good_removeStep (s : KvStoreInner) (hg : Good s) (k : String)
    (old : CommandPos) (hl : lookupIdx s.index k = some old) :
    Good (s.removeStep k) := by
  refine ⟨?_, ?_, ?_, ?_⟩
  · intro k' cp hl'
    by_cases hk : k' = k
    · subst hk
      rw [show (s.removeStep k').index = removeIdx s.index k' from rfl,
        lookupIdx_remove_self s.index k' hg.nodup] at hl'
      cases hl'
    · rw [show (s.removeStep k).index = removeIdx s.index k from rfl,
        lookupIdx_remove_ne s.index k k' hk] at hl'
      obtain ⟨v', hv'⟩ := hg.frames k' cp hl'
      exact ⟨v', recAt_append_some s.log [.Remove k] cp.pos cp.len _ hv'⟩
  · exact nodup_removeIdx s.index k hg.nodup
  · show build_index (s.log ++ [.Remove k]) = _
    rw [build_index_snoc_remove, hg.rebuild]
    simp only [KvStoreInner.removeStep, hl]
    rw [Nat.add_assoc]
  · have h1 : liveBytes (removeIdx s.index k) + old.len
        = liveBytes s.index := liveBytes_remove s.index k old hl
    have h2 := hg.size
    have h3 : (s.removeStep k).stale_bytes
        = s.stale_bytes + (old.len + encLen (Command.Remove k)) := by
      show s.stale_bytes + (match lookupIdx s.index k with
        | some o => o.len + encLen (Command.Remove k)
        | none => 0) = _
      rw [hl]
    have h4 : (s.removeStep k).index = removeIdx s.index k := rfl
    have h5 : (s.removeStep k).log = s.log ++ [Command.Remove k] := rfl
    rw [h5, h4, h3, logSize_append, logSize_cons, logSize_nil]
    omega

theorem wf_remove (s : KvStoreInner) (hw : WF s) (k : String)
    (s' : KvStoreInner) (h : s.remove k = .ok s') : WF s' := by
  simp only [KvStoreInner.remove] at h
  by_cases hc : (lookupIdx s.index k).isSome
  · rw [if_pos hc] at h
    obtain ⟨old, hold⟩ := Option.isSome_iff_exists.mp hc
    have hg' := good_removeStep s hw.1 k old hold
    by_cases hthr : (s.removeStep k).stale_bytes > COMPACTION_THRESHOLD
    · rw [if_pos hthr] at h
      have hs' : s' = (s.removeStep k).compact :=
        (Except.ok.inj h).symm
      rw [hs']
      exact wf_compact _ hg'
    · rw [if_neg hthr] at h
      have hs' : s' = s.removeStep k := (Except.ok.inj h).symm
      rw [hs']
      exact ⟨hg', by omega⟩
  · rw [if_neg hc] at h
    cases h

theorem wf_applyOp (s : KvStoreInner) (hw : WF s) (op : Op) :
    WF (applyOp s op) := by
  cases op with
  | set k v => exact wf_set s hw k v
  | remove k =>
      rw [applyOp]
      cases h : s.remove k with
      | ok s' => exact wf_remove s hw k s' h
      | error e => exact hw
  | get k => exact hw

theorem wf_runOps (s : KvStoreInner) (hw : WF s) (ops : List Op) :
    WF (runOps s ops) := by
  induction ops generalizing s with
  | nil => exact hw
  | cons op rest ih =>
      rw [runOps_cons]
      exact ih _ (wf_applyOp s hw op)

theorem wf_reachable (s : KvStoreInner) (h : Reachable s) : WF s := by
  obtain ⟨ops, rfl⟩ := h
  exact wf_runOps openFresh wf_openFresh ops

/-! ### How operations affect `get` -/

theorem get_of_lookup_none (s : KvStoreInner) (k : String)
    (h : lookupIdx s.index k = none) : s.get k = .ok none := by
  simp [KvStoreInner.get, h]

theorem get_of_frames (s : KvStoreInner) (k : String) (cp : CommandPos)
    (v : String) (hl : lookupIdx s.index k = some cp)
    (hv : recAt s.log cp.pos cp.len = some (.Set k v)) :
    s.get k = .ok (some v) := by
  simp [KvStoreInner.get, hl, hv]

theorem get_setCore_same (s : KvStoreInner) (k v : String) :
    (s.setCore k v).get k = .ok (some v) := by
  have e1 : lookupIdx (s.setCore k v).index k
      = some ⟨logSize s.log, encLen (.Set k v)⟩ :=
    lookupIdx_insert_self s.index k _
  have e2 : recAt (s.setCore k v).log (logSize s.log) (encLen (.Set k v))
      = some (.Set k v) := recAt_append_self s.log (.Set k v) []
  simp [KvStoreInner.get, e1, e2]

theorem get_setCore_ne (s : KvStoreInner) (hg : Good s) (k v k' : String)
    (h : k' ≠ k) : (s.setCore k v).get k' = s.get k' := by
  have e1 : lookupIdx (s.setCore k v).index k' = lookupIdx s.index k' :=
    lookupIdx_insert_ne s.index k k' _ h
  cases hl : lookupIdx s.index k' with
  | none =>
      rw [get_of_lookup_none s k' hl, get_of_lookup_none _ k'
        (e1.trans hl)]
  | some cp =>
      obtain ⟨v', hv'⟩ := hg.frames k' cp hl
      rw [get_of_frames s k' cp v' hl hv',
        get_of_frames _ k' cp v' (e1.trans hl)
          (recAt_append_some s.log [.Set k v] cp.pos cp.len _ hv')]

theorem get_set_same (s : KvStoreInner) (hg : Good s) (k v : String) :
    (s.set k v).get k = .ok (some v) := by
  simp only [KvStoreInner.set]
  by_cases hthr : (s.setCore k v).stale_bytes > COMPACTION_THRESHOLD
  · rw [if_pos hthr, compact_get _ (good_setCore s hg k v),
      get_setCore_same]
  · rw [if_neg hthr, get_setCore_same]

theorem get_set_ne (s : KvStoreInner) (hg : Good s) (k v k' : String)
    (h : k' ≠ k) : (s.set k v).get k' = s.get k' := by
  simp only [KvStoreInner.set]
  by_cases hthr : (s.setCore k v).stale_bytes > COMPACTION_THRESHOLD
  · rw [if_pos hthr, compact_get _ (good_setCore s hg k v),
      get_setCore_ne s hg k v k' h]
  · rw [if_neg hthr, get_setCore_ne s hg k v k' h]

theorem remove_error_of_lookup_none (s : KvStoreInner) (k : String)
    (h : lookupIdx s.index k = none) :
    s.remove k = .error .KeyNotFound := by
  simp [KvStoreInner.remove, h]

theorem remove_ok_cases (s : KvStoreInner) (k : String) (s' : KvStoreInner)
    (h : s.remove k = .ok s') :
    (lookupIdx s.index k).isSome = true ∧
    s' = (if (s.removeStep k).stale_bytes > COMPACTION_THRESHOLD
          then (s.removeStep k).compact else s.removeStep k) := by
  simp only [KvStoreInner.remove] at h
  by_cases hc : (lookupIdx s.index k).isSome
  · rw [if_pos hc] at h
    exact ⟨hc, (Except.ok.inj h).symm⟩
  · rw [if_neg hc] at h
    cases h

theorem remove_ok_lookup_none (s : KvStoreInner) (hg : Good s)
    (k : String) (s' : KvStoreInner) (h : s.remove k = .ok s') :
    lookupIdx s'.index k = none := by
  obtain ⟨-, hs'⟩ := remove_ok_cases s k s' h
  have hstep : lookupIdx (s.removeStep k).index k = none :=
    lookupIdx_remove_self s.index k hg.nodup
  subst hs'
  by_cases hthr : (s.removeStep k).stale_bytes > COMPACTION_THRESHOLD
  · rw [if_pos hthr]
    exact compact_lookup_none _ k hstep
  · rw [if_neg hthr]
    exact hstep

theorem get_remove_ne (s : KvStoreInner) (hg : Good s) (k k' : String)
    (s' : KvStoreInner) (h : s.remove k = .ok s') (hne : k' ≠ k) :
    s'.get k' = s.get k' := by
  obtain ⟨hc, hs'⟩ := remove_ok_cases s k s' h
  obtain ⟨old, hold⟩ := Option.isSome_iff_exists.mp hc
  have hstep : (s.removeStep k).get k' = s.get k' := by
    have e1 : lookupIdx (s.removeStep k).index k' = lookupIdx s.index k' :=
      lookupIdx_remove_ne s.index k k' hne
    cases hl : lookupIdx s.index k' with
    | none =>
        rw [get_of_lookup_none s k' hl,
          get_of_lookup_none _ k' (e1.trans hl)]
    | some cp =>
        obtain ⟨v', hv'⟩ := hg.frames k' cp hl
        rw [get_of_frames s k' cp v' hl hv',
          get_of_frames _ k' cp v' (e1.trans hl)
            (recAt_append_some s.log [.Remove k] cp.pos cp.len _ hv')]
  subst hs'
  by_cases hthr : (s.removeStep k).stale_bytes > COMPACTION_THRESHOLD
  · rw [if_pos hthr,
      compact_get _ (good_removeStep s hg k old hold), hstep]
  · rw [if_neg hthr, hstep]

theorem applyOp_remove_error (s : KvStoreInner) (k : String)
    (h : lookupIdx s.index k = none) : applyOp s (.remove k) = s := by
  rw [applyOp, remove_error_of_lookup_none s k h]

/-! ### Reads are unaffected by operations on other keys -/

theorem get_runOps_no_touch (s : KvStoreInner) (hw : WF s)
    (post : List Op) (k : String) (hpost : ∀ op ∈ post, opKey op ≠ k) :
    (runOps s post).get k = s.get k := by
  induction post generalizing s with
  | nil => rfl
  | cons op rest ih =>
      have hk : opKey op ≠ k := hpost op (List.mem_cons_self op rest)
      rw [runOps_cons,
        ih (applyOp s op) (wf_applyOp s hw op)
          (fun o ho => hpost o (List.mem_cons_of_mem op ho))]
      cases op with
      | set k' v' =>
          have h : k ≠ k' := fun hh => hk hh.symm
          exact get_set_ne s hw.1 k' v' k h
      | remove k' =>
          have h : k ≠ k' := fun hh => hk hh.symm
          rw [applyOp]
          cases hrm : s.remove k' with
          | ok s' => exact get_remove_ne s hw.1 k' k s' hrm h
          | error e => rfl
      | get _ => rfl

/-- C1: for every workload in which all operations on key `k` are
`set`s (operations on other keys are arbitrary), `get k` after the
workload returns the value of the most recent `set k`. -/
theorem c1_overwrite_get_last_set (pre post : List Op) (k v : String)
    (_hall : ∀ op ∈ pre ++ Op.set k v :: post,
      opKey op = k → ∃ v', op = Op.set k v')
    (hpost : ∀ op ∈ post, opKey op ≠ k) :
    (runOps openFresh (pre ++ Op.set k v :: post)).get k
      = .ok (some v) := by
  rw [runOps_append, runOps_cons]
  have hw1 : WF (runOps openFresh pre) := wf_runOps _ wf_openFresh pre
  have hw2 : WF (applyOp (runOps openFresh pre) (.set k v)) :=
    wf_applyOp _ hw1 _
  rw [get_runOps_no_touch _ hw2 post k hpost]
  exact get_set_same _ hw1.1 k v

theorem c1_witness :
    (∀ op ∈ [Op.set "a" "1", Op.set "b" "2"] ++
        Op.set "a" "3" :: [Op.get "b"],
      opKey op = "a" → ∃ v', op = Op.set "a" v') ∧
    (∀ op ∈ [Op.get "b"], opKey op ≠ "a") ∧
    (runOps openFresh ([Op.set "a" "1", Op.set "b" "2"] ++
        Op.set "a" "3" :: [Op.get "b"])).get "a" = .ok (some "3") := by
  refine ⟨?_, ?_, ?_⟩
  · intro op hop h
    simp only [List.cons_append, List.nil_append, List.mem_cons,
      List.not_mem_nil, or_false] at hop
    rcases hop with rfl | rfl | rfl | rfl
    · exact ⟨"1", rfl⟩
    · exact absurd h (by decide)
    · exact ⟨"3", rfl⟩
    · exact absurd h (by decide)
  · intro op hop
    simp only [List.mem_cons, List.not_mem_nil, or_false] at hop
    subst hop
    decide
  · refine c1_overwrite_get_last_set [Op.set "a" "1", Op.set "b" "2"]
      [Op.get "b"] "a" "3" ?_ ?_
    · intro op hop h
      simp only [List.cons_append, List.nil_append, List.mem_cons,
        List.not_mem_nil, or_false] at hop
      rcases hop with rfl | rfl | rfl | rfl
      · exact ⟨"1", rfl⟩
      · exact absurd h (by decide)
      · exact ⟨"3", rfl⟩
      · exact absurd h (by decide)
    · intro op hop
      simp only [List.mem_cons, List.not_mem_nil, or_false] at hop
      subst hop
      decide

/-- C2: after a successful `remove k`, `get k` is the empty optional
and a second `remove k` fails with `KeyNotFound`; a `remove` of a key
absent from the index fails with `KeyNotFound` and leaves the whole
state (log, index, `stale_bytes`) unchanged. -/
theorem c2_remove_semantics (s : KvStoreInner) (k : String)
    (hr : Reachable s) :
    (∀ s', s.remove k = .ok s' →
       s'.get k = .ok none ∧ s'.remove k = .error .KeyNotFound) ∧
    (lookupIdx s.index k = none →
       s.remove k = .error .KeyNotFound ∧ applyOp s (.remove k) = s) := by
  have hw := wf_reachable s hr
  constructor
  · intro s' h
    have hnone := remove_ok_lookup_none s hw.1 k s' h
    exact ⟨get_of_lookup_none s' k hnone,
      remove_error_of_lookup_none s' k hnone⟩
  · intro h
    exact ⟨remove_error_of_lookup_none s k h, applyOp_remove_error s k h⟩

theorem c2_witness :
    ((runOps openFresh [Op.set "a" "1", Op.remove "a"]).get "a"
        = .ok none ∧
     (runOps openFresh [Op.set "a" "1", Op.remove "a"]).remove "a"
        = .error .KeyNotFound) ∧
    ((runOps openFresh [Op.set "a" "1"]).remove "b"
        = .error .KeyNotFound ∧
     applyOp (runOps openFresh [Op.set "a" "1"]) (.remove "b")
        = runOps openFresh [Op.set "a" "1"]) := by
  constructor
  · exact (c2_remove_semantics (runOps openFresh [Op.set "a" "1"]) "a"
      ⟨[Op.set "a" "1"], rfl⟩).1
      (runOps openFresh [Op.set "a" "1", Op.remove "a"]) (by rfl)
  · exact (c2_remove_semantics (runOps openFresh [Op.set "a" "1"]) "b"
      ⟨[Op.set "a" "1"], rfl⟩).2 (by rfl)

/-- The records a compaction writes are exactly one `Set` per index
key, in index order. -/
theorem compactGo_records_keys (oldLog : List Command) :
    ∀ (entries : Index) (base : Nat),
    (∀ e ∈ entries, ∃ v, recAt oldLog e.2.pos e.2.len
      = some (.Set e.1 v)) →
    (compactGo oldLog base entries).1.map cmdKey = entries.map Prod.fst
    ∧ (∀ c ∈ (compactGo oldLog base entries).1, isSetCmd c = true) := by
  intro entries
  induction entries with
  | nil => intro base _; exact ⟨rfl, by intro c hc; cases hc⟩
  | cons e rest ih =>
      intro base H
      obtain ⟨v, hv⟩ := H e (by simp)
      have Hrest : ∀ e' ∈ rest, ∃ v', recAt oldLog e'.2.pos e'.2.len
          = some (.Set e'.1 v') := fun e' he' => H e' (by simp [he'])
      obtain ⟨ih1, ih2⟩ := ih (base + encLen (.Set e.1 v)) Hrest
      constructor
      · simp only [compactGo, hv, List.map_cons, cmdKey]
        rw [ih1]
      · intro c hc
        simp only [compactGo, hv, List.mem_cons] at hc
        rcases hc with rfl | hc
        · rfl
        · exact ih2 c hc

/-- C3: for a reachable engine state, replaying the log reproduces the
index and the stale counter exactly, so dropping and reopening the
directory leaves every `get` unchanged; during a rebuild, a `Remove`
for an absent key is tolerated and still adds its own encoded length to
`stale_bytes`. -/
theorem c3_persistence (s : KvStoreInner) (hr : Reachable s) :
    build_index s.log = (s.index, s.stale_bytes) ∧
    reopen s = s ∧
    (∀ k, (reopen s).get k = s.get k) ∧
    (∀ (pos sb : Nat) (idx : Index) (k : String) (rest : List Command),
      lookupIdx idx k = none →
      buildGo pos idx sb (Command.Remove k :: rest)
        = buildGo (pos + encLen (.Remove k)) idx
            (sb + encLen (.Remove k)) rest) := by
  have hw := wf_reachable s hr
  have hb := hw.1.rebuild
  have hre : reopen s = s := by
    show openLog s.log = s
    rw [openLog, hb]
  refine ⟨hb, hre, fun k => by rw [hre], ?_⟩
  intro pos sb idx k rest h
  simp [buildGo, h, removeIdx_of_lookup_none idx k h]

theorem c3_witness :
    build_index (runOps openFresh [Op.set "a" "1", Op.set "b" "2"]).log
      = ((runOps openFresh [Op.set "a" "1", Op.set "b" "2"]).index,
         (runOps openFresh [Op.set "a" "1", Op.set "b" "2"]).stale_bytes)
    ∧ (reopen (runOps openFresh [Op.set "a" "1", Op.set "b" "2"])).get "a"
      = (runOps openFresh [Op.set "a" "1", Op.set "b" "2"]).get "a"
    ∧ buildGo 0 [] 0 [Command.Remove "z"]
      = buildGo (0 + encLen (.Remove "z")) [] (0 + encLen (.Remove "z")) [] := by
  refine ⟨(c3_persistence _ ⟨[Op.set "a" "1", Op.set "b" "2"], rfl⟩).1,
    (c3_persistence _ ⟨[Op.set "a" "1", Op.set "b" "2"], rfl⟩).2.2.1 "a",
    (c3_persistence _ ⟨[], rfl⟩).2.2.2 0 0 [] "z" [] rfl⟩

/-- C4: compaction changes no `get` result; afterwards `stale_bytes`
is 0 and the log holds exactly one `Set` record per index key (in some
order — the index iteration order) and no `Remove` records. -/
theorem c4_compaction (s : KvStoreInner) (hr : Reachable s) :
    (∀ k, s.compact.get k = s.get k) ∧
    s.compact.stale_bytes = 0 ∧
    s.compact.log.map cmdKey = s.index.map Prod.fst ∧
    (∀ c ∈ s.compact.log, isSetCmd c = true) ∧
    (s.index.map Prod.fst).Nodup := by
  have hw := wf_reachable s hr
  obtain ⟨h3, h4⟩ := compactGo_records_keys s.log s.index 0
    (good_mem_frames s hw.1)
  exact ⟨fun k => compact_get s hw.1 k, rfl, h3, h4, hw.1.nodup⟩

theorem c4_witness :
    (runOps openFresh [Op.set "a" "1", Op.set "a" "2"]).compact.get "a"
      = (runOps openFresh [Op.set "a" "1", Op.set "a" "2"]).get "a" ∧
    (runOps openFresh [Op.set "a" "1", Op.set "a" "2"]).compact.stale_bytes
      = 0 ∧
    (runOps openFresh [Op.set "a" "1", Op.set "a" "2"]).compact.log.map
        cmdKey
      = (runOps openFresh [Op.set "a" "1", Op.set "a" "2"]).index.map
        Prod.fst :=
  ⟨(c4_compaction _ ⟨[Op.set "a" "1", Op.set "a" "2"], rfl⟩).1 "a",
   (c4_compaction _ ⟨[Op.set "a" "1", Op.set "a" "2"], rfl⟩).2.1,
   (c4_compaction _ ⟨[Op.set "a" "1", Op.set "a" "2"], rfl⟩).2.2.1⟩

/-- C5: after any workload from a fresh directory, the log file's byte
size is at most `2 × (live record bytes) + COMPACTION_THRESHOLD`; the
stale-byte counter never ends an operation above the 1 MiB
threshold because `set` and `remove` compact whenever it is
exceeded. -/
theorem c5_log_size_bound (ops : List Op) :
    logSize (runOps openFresh ops).log
      ≤ 2 * liveBytes (runOps openFresh ops).index + COMPACTION_THRESHOLD
    ∧ (runOps openFresh ops).stale_bytes ≤ COMPACTION_THRESHOLD
    ∧ COMPACTION_THRESHOLD = 1024 * 1024 := by
  have hw := wf_runOps openFresh wf_openFresh ops
  have h1 := hw.1.size
  have h2 := hw.2
  exact ⟨by omega, h2, rfl⟩

/-- C6: in every reachable state each index entry frames a `Set` record
with the matching key, so `get` never signals `UnexpectedCommandType`;
in any state at all, `get` signals `UnexpectedCommandType` only when
the decoded record is not a `Set`. -/
theorem c6_index_integrity (s : KvStoreInner) (hr : Reachable s) :
    (∀ k cp, lookupIdx s.index k = some cp →
        ∃ v, recAt s.log cp.pos cp.len = some (.Set k v)) ∧
    (∀ k, s.get k ≠ .error .UnexpectedCommandType) ∧
    (∀ (t : KvStoreInner) (k : String),
        t.get k = .error .UnexpectedCommandType →
        ∃ cp c, lookupIdx t.index k = some cp ∧
          recAt t.log cp.pos cp.len = some c ∧ isSetCmd c = false) := by
  have hw := wf_reachable s hr
  refine ⟨hw.1.frames, ?_, ?_⟩
  · intro k
    cases hl : lookupIdx s.index k with
    | none => rw [get_of_lookup_none s k hl]; simp
    | some cp =>
        obtain ⟨v, hv⟩ := hw.1.frames k cp hl
        rw [get_of_frames s k cp v hl hv]
        simp
  · intro t k h
    cases hl : lookupIdx t.index k with
    | none => rw [get_of_lookup_none t k hl] at h; cases h
    | some cp =>
        cases hc : recAt t.log cp.pos cp.len with
        | none => simp [KvStoreInner.get, hl, hc] at h
        | some c =>
            cases c with
            | Set k'' v'' => simp [KvStoreInner.get, hl, hc] at h
            | Remove k'' => exact ⟨cp, .Remove k'', rfl, hc, rfl⟩

theorem c6_witness :
    (runOps openFresh [Op.set "a" "1"]).get "a"
      ≠ .error .UnexpectedCommandType :=
  (c6_index_integrity _ ⟨[Op.set "a" "1"], rfl⟩).2.1 "a"

/-! ## The simple non-compacting engine (`src/kv.rs`)

`struct KvStore { writer, reader, index }`: same log format and same
read path, but no `stale_bytes` and no compaction, and `remove` does
not record the tombstone's extent. -/

structure KvStore where
  log : List Command
  index : Index
  deriving DecidableEq, Repr

/-- The scanning loop of `KvStore::build_index` in `src/kv.rs` (no
stale accounting). -/
def buildGoSimple (pos : Nat) (idx : Index) : List Command → Index
  | [] => idx
  | c :: rest =>
      match c with
      | .Set k _ =>
          buildGoSimple (pos + encLen c)
            (insertIdx idx k ⟨pos, encLen c⟩) rest
      | .Remove k =>
          buildGoSimple (pos + encLen c) (removeIdx idx k) rest

/-- `KvStore::build_index` of `src/kv.rs`. -/
def KvStore.build_index (log : List Command) : Index :=
  buildGoSimple 0 [] log

/-- `KvStore::set` of `src/kv.rs`. -/
def KvStore.set (s : KvStore) (key value : String) : KvStore :=
  let cmd := Command.Set key value
  { log := s.log ++ [cmd]
    index := insertIdx s.index key ⟨logSize s.log, encLen cmd⟩ }

/-- `KvStore::get` of `src/kv.rs` (same read path as the engine). -/
def KvStore.get (s : KvStore) (key : String) :
    Except KvsError (Option String) :=
  match lookupIdx s.index key with
  | some cp =>
      match recAt s.log cp.pos cp.len with
      | some (.Set _ value) => .ok (some value)
      | some (.Remove _) => .error .UnexpectedCommandType
      | none => .error .Serde
  | none => .ok none

/-- `KvStore::remove` of `src/kv.rs`. -/
def KvStore.remove (s : KvStore) (key : String) :
    Except KvsError KvStore :=
  if (lookupIdx s.index key).isSome then
    .ok { log := s.log ++ [Command.Remove key]
          index := removeIdx s.index key }
  else .error .KeyNotFound

/-- Well-formedness of the simple engine: index entries frame matching
`Set` records, and keys are unique. -/
structure GoodS (s : KvStore) : Prop where
  frames : ∀ k cp, lookupIdx s.index k = some cp →
    ∃ v, recAt s.log cp.pos cp.len = some (.Set k v)
  nodup : (s.index.map Prod.fst).Nodup

theorem goodS_empty : GoodS ⟨[], []⟩ := by
  refine ⟨?_, by simp⟩
  intro k cp h
  simp [lookupIdx] at h

theorem getS_of_lookup_none (s : KvStore) (k : String)
    (h : lookupIdx s.index k = none) : s.get k = .ok none := by
  simp [KvStore.get, h]

theorem getS_of_frames (s : KvStore) (k : String) (cp : CommandPos)
    (v : String) (hl : lookupIdx s.index k = some cp)
    (hv : recAt s.log cp.pos cp.len = some (.Set k v)) :
    s.get k = .ok (some v) := by
  simp [KvStore.get, hl, hv]

theorem goodS_set (s : KvStore) (hg : GoodS s) (k v : String) :
    GoodS (s.set k v) := by
  refine ⟨?_, nodup_insertIdx s.index k _ hg.nodup⟩
  intro k' cp hl
  by_cases hk : k' = k
  · subst hk
    rw [show (s.set k' v).index
        = insertIdx s.index k' ⟨logSize s.log, encLen (.Set k' v)⟩
        from rfl, lookupIdx_insert_self] at hl
    have hcp : cp = ⟨logSize s.log, encLen (.Set k' v)⟩ :=
      (Option.some_inj.mp hl).symm
    subst hcp
    exact ⟨v, recAt_append_self s.log (.Set k' v) []⟩
  · rw [show (s.set k v).index
        = insertIdx s.index k ⟨logSize s.log, encLen (.Set k v)⟩
        from rfl, lookupIdx_insert_ne s.index k k' _ hk] at hl
    obtain ⟨v', hv'⟩ := hg.frames k' cp hl
    exact ⟨v', recAt_append_some s.log [.Set k v] cp.pos cp.len _ hv'⟩

theorem getS_set_same (s : KvStore) (k v : String) :
    (s.set k v).get k = .ok (some v) := by
  have e1 : lookupIdx (s.set k v).index k
      = some ⟨logSize s.log, encLen (.Set k v)⟩ :=
    lookupIdx_insert_self s.index k _
  have e2 : recAt (s.set k v).log (logSize s.log) (encLen (.Set k v))
      = some (.Set k v) := recAt_append_self s.log (.Set k v) []
  simp [KvStore.get, e1, e2]

theorem getS_set_ne (s : KvStore) (hg : GoodS s) (k v k' : String)
    (h : k' ≠ k) : (s.set k v).get k' = s.get k' := by
  have e1 : lookupIdx (s.set k v).index k' = lookupIdx s.index k' :=
    lookupIdx_insert_ne s.index k k' _ h
  cases hl : lookupIdx s.index k' with
  | none =>
      rw [getS_of_lookup_none s k' hl,
        getS_of_lookup_none _ k' (e1.trans hl)]
  | some cp =>
      obtain ⟨v', hv'⟩ := hg.frames k' cp hl
      rw [getS_of_frames s k' cp v' hl hv',
        getS_of_frames _ k' cp v' (e1.trans hl)
          (recAt_append_some s.log [.Set k v] cp.pos cp.len _ hv')]

theorem removeS_error_of_lookup_none (s : KvStore) (k : String)
    (h : lookupIdx s.index k = none) :
    s.remove k = .error .KeyNotFound := by
  simp [KvStore.remove, h]

theorem removeS_ok_of_isSome (s : KvStore) (k : String)
    (hc : (lookupIdx s.index k).isSome = true) :
    s.remove k = .ok ⟨s.log ++ [Command.Remove k],
      removeIdx s.index k⟩ := by
  simp [KvStore.remove, hc]

theorem goodS_remove (s : KvStore) (hg : GoodS s) (k : String) :
    GoodS ⟨s.log ++ [Command.Remove k], removeIdx s.index k⟩ := by
  refine ⟨?_, nodup_removeIdx s.index k hg.nodup⟩
  intro k' cp hl
  by_cases hk : k' = k
  · subst hk
    rw [show (⟨s.log ++ [Command.Remove k'], removeIdx s.index k'⟩
        : KvStore).index = removeIdx s.index k' from rfl,
      lookupIdx_remove_self s.index k' hg.nodup] at hl
    cases hl
  · rw [show (⟨s.log ++ [Command.Remove k], removeIdx s.index k⟩
        : KvStore).index = removeIdx s.index k from rfl,
      lookupIdx_remove_ne s.index k k' hk] at hl
    obtain ⟨v', hv'⟩ := hg.frames k' cp hl
    exact ⟨v', recAt_append_some s.log [.Remove k] cp.pos cp.len _ hv'⟩

theorem getS_remove_ne (s : KvStore) (hg : GoodS s) (k k' : String)
    (h : k' ≠ k) :
    (⟨s.log ++ [Command.Remove k], removeIdx s.index k⟩ : KvStore).get k'
      = s.get k' := by
  have e1 : lookupIdx (removeIdx s.index k) k' = lookupIdx s.index k' :=
    lookupIdx_remove_ne s.index k k' h
  cases hl : lookupIdx s.index k' with
  | none =>
      rw [getS_of_lookup_none s k' hl]
      exact getS_of_lookup_none _ k' (e1.trans hl)
  | some cp =>
      obtain ⟨v', hv'⟩ := hg.frames k' cp hl
      rw [getS_of_frames s k' cp v' hl hv']
      exact getS_of_frames _ k' cp v' (e1.trans hl)
        (recAt_append_some s.log [.Remove k] cp.pos cp.len _ hv')

/-! ## Observable results of a workload, engine by engine -/

/-- What a caller observes from one operation: a `get` result, a unit
success, or an error. -/
inductive Reply where
  | got (v : Option String)
  | done
  | failed (e : KvsError)
  deriving DecidableEq, Repr

/-- One operation on the compacting engine, with its reply. -/
def stepK (s : KvStoreInner) : Op → KvStoreInner × Reply
  | .set k v => (s.set k v, .done)
  | .remove k =>
      match s.remove k with
      | .ok s' => (s', .done)
      | .error e => (s, .failed e)
  | .get k =>
      (s, match s.get k with
          | .ok v => .got v
          | .error e => .failed e)

/-- The replies of a workload on the compacting engine. -/
def runK : KvStoreInner → List Op → List Reply
  | _, [] => []
  | s, op :: rest => (stepK s op).2 :: runK (stepK s op).1 rest

/-- One operation on the simple engine, with its reply. -/
def stepS (s : KvStore) : Op → KvStore × Reply
  | .set k v => (s.set k v, .done)
  | .remove k =>
      match s.remove k with
      | .ok s' => (s', .done)
      | .error e => (s, .failed e)
  | .get k =>
      (s, match s.get k with
          | .ok v => .got v
          | .error e => .failed e)

/-- The replies of a workload on the simple engine. -/
def runS : KvStore → List Op → List Reply
  | _, [] => []
  | s, op :: rest => (stepS s op).2 :: runS (stepS s op).1 rest

theorem runK_cons (t : KvStoreInner) (op : Op) (rest : List Op) :
    runK t (op :: rest) = (stepK t op).2 :: runK (stepK t op).1 rest := rfl

theorem runS_cons (s : KvStore) (op : Op) (rest : List Op) :
    runS s (op :: rest) = (stepS s op).2 :: runS (stepS s op).1 rest := rfl

theorem stepK_remove_ok (t : KvStoreInner) (k : String)
    (t' : KvStoreInner) (h : t.remove k = .ok t') :
    stepK t (.remove k) = (t', .done) := by
  simp [stepK, h]

theorem stepK_remove_err (t : KvStoreInner) (k : String) (e : KvsError)
    (h : t.remove k = .error e) :
    stepK t (.remove k) = (t, .failed e) := by
  simp [stepK, h]

theorem stepS_remove_ok (s : KvStore) (k : String) (s' : KvStore)
    (h : s.remove k = .ok s') : stepS s (.remove k) = (s', .done) := by
  simp [stepS, h]

theorem stepS_remove_err (s : KvStore) (k : String) (e : KvsError)
    (h : s.remove k = .error e) :
    stepS s (.remove k) = (s, .failed e) := by
  simp [stepS, h]

theorem remove_ok_of_isSome (t : KvStoreInner) (k : String)
    (hc : (lookupIdx t.index k).isSome = true) :
    t.remove k
      = .ok (if (t.removeStep k).stale_bytes > COMPACTION_THRESHOLD
             then (t.removeStep k).compact else t.removeStep k) := by
  simp [KvStoreInner.remove, hc]

/-- Both engines give the same reply list to every workload, provided
their states are well formed and agree on every read. -/
theorem runS_eq_runK (ops : List Op) : ∀ (s : KvStore) (t : KvStoreInner),
    GoodS s → WF t → (∀ k, s.get k = t.get k) →
    runS s ops = runK t ops := by
  induction ops with
  | nil => intro s t _ _ _; rfl
  | cons op rest ih =>
      intro s t hgs hwt hget
      cases op with
      | set k v =>
          have hget' : ∀ k', (s.set k v).get k' = (t.set k v).get k' := by
            intro k'
            by_cases hk : k' = k
            · subst hk
              rw [getS_set_same, get_set_same t hwt.1 k' v]
            · rw [getS_set_ne s hgs k v k' hk,
                get_set_ne t hwt.1 k v k' hk, hget k']
          show Reply.done :: runS (s.set k v) rest
              = Reply.done :: runK (t.set k v) rest
          rw [ih (s.set k v) (t.set k v) (goodS_set s hgs k v)
            (wf_set t hwt k v) hget']
      | get k =>
          rw [runS_cons, runK_cons]
          show (match s.get k with
                | .ok v => Reply.got v
                | .error e => Reply.failed e) :: runS s rest
              = (match t.get k with
                 | .ok v => Reply.got v
                 | .error e => Reply.failed e) :: runK t rest
          rw [hget k, ih s t hgs hwt hget]
      | remove k =>
          by_cases hn : lookupIdx t.index k = none
          · have htr : t.remove k = .error .KeyNotFound :=
              remove_error_of_lookup_none t k hn
            have hsn : lookupIdx s.index k = none := by
              have h1 : s.get k = .ok none := by
                rw [hget k]
                exact get_of_lookup_none t k hn
              cases hl : lookupIdx s.index k with
              | none => rfl
              | some cp =>
                  obtain ⟨v, hv⟩ := hgs.frames k cp hl
                  rw [getS_of_frames s k cp v hl hv] at h1
                  simp at h1
            have hsr : s.remove k = .error .KeyNotFound :=
              removeS_error_of_lookup_none s k hsn
            rw [runS_cons, runK_cons, stepS_remove_err s k _ hsr,
              stepK_remove_err t k _ htr]
            show Reply.failed .KeyNotFound :: runS s rest
                = Reply.failed .KeyNotFound :: runK t rest
            rw [ih s t hgs hwt hget]
          · have hcT : (lookupIdx t.index k).isSome = true := by
              cases hl : lookupIdx t.index k with
              | none => exact absurd hl hn
              | some cp => rfl
            obtain ⟨cp, hcp⟩ := Option.isSome_iff_exists.mp hcT
            obtain ⟨v, hv⟩ := hwt.1.frames k cp hcp
            have hsg : s.get k = .ok (some v) := by
              rw [hget k]
              exact get_of_frames t k cp v hcp hv
            have hsS : (lookupIdx s.index k).isSome = true := by
              cases hl : lookupIdx s.index k with
              | none =>
                  rw [getS_of_lookup_none s k hl] at hsg
                  simp at hsg
              | some cp' => rfl
            have htr := remove_ok_of_isSome t k hcT
            have hsr := removeS_ok_of_isSome s k hsS
            have hgs' : GoodS ⟨s.log ++ [Command.Remove k],
                removeIdx s.index k⟩ := goodS_remove s hgs k
            have hwt' : WF (if (t.removeStep k).stale_bytes
                  > COMPACTION_THRESHOLD
                then (t.removeStep k).compact else t.removeStep k) :=
              wf_remove t hwt k _ htr
            have hget' : ∀ k',
                (⟨s.log ++ [Command.Remove k], removeIdx s.index k⟩
                  : KvStore).get k'
                = (if (t.removeStep k).stale_bytes > COMPACTION_THRESHOLD
                   then (t.removeStep k).compact
                   else t.removeStep k).get k' := by
              intro k'
              by_cases hk : k' = k
              · subst hk
                rw [get_of_lookup_none _ k'
                  (remove_ok_lookup_none t hwt.1 k' _ htr)]
                exact getS_of_lookup_none _ k'
                  (lookupIdx_remove_self s.index k' hgs.nodup)
              · rw [get_remove_ne t hwt.1 k k' _ htr hk,
                  getS_remove_ne s hgs k k' hk, hget k']
            rw [runS_cons, runK_cons, stepS_remove_ok s k _ hsr,
              stepK_remove_ok t k _ htr]
            show Reply.done :: runS _ rest = Reply.done :: runK _ rest
            rw [ih _ _ hgs' hwt' hget']

/-- C10: on a fresh directory, the simple engine of `src/kv.rs` and the
compacting engine of `src/engine/kvs.rs` return identical results for
every operation of every workload: the same `get` values, the same unit
successes, and `KeyNotFound` on exactly the same removes. -/
theorem c10_engine_equivalence (ops : List Op) :
    runS ⟨[], []⟩ ops = runK openFresh ops :=
  runS_eq_runK ops ⟨[], []⟩ openFresh goodS_empty wf_openFresh
    (fun _ => rfl)

/-! ## The server (`src/server.rs`) -/

/-- `enum Request` of `src/protocol.rs`. -/
inductive Request where
  | Set (key value : String)
  | Get (key : String)
  | Remove (key : String)
  deriving DecidableEq, Repr

/-- `enum Response` of `src/protocol.rs`. -/
inductive Response where
  | Ok (value : Option String)
  | Err (msg : String)
  deriving DecidableEq, Repr

/-- The per-request body of `handle_client` in `src/server.rs`: invoke
the engine operation, build `Response::Ok` on success (the value for
`Get`, `None` for `Set`/`Remove`) and `Response::Err(e.to_string())`
on an engine error.  `set` cannot fail over the idealized file, so its
error arm never fires and is not represented. -/
def handleRequest (engine : KvStoreInner) :
    Request → KvStoreInner × Response
  | .Get key =>
      (engine, match engine.get key with
               | .ok value => .Ok value
               | .error e => .Err e.toMessage)
  | .Set key value => (engine.set key value, .Ok none)
  | .Remove key =>
      match engine.remove key with
      | .ok engine' => (engine', .Ok none)
      | .error e => (engine, .Err e.toMessage)

/-- The request loop of `handle_client`: serve each decoded request in
order, one response per request, until EOF.  Engine errors become
responses, never loop exits. -/
def handle_client (engine : KvStoreInner) :
    List Request → KvStoreInner × List Response
  | [] => (engine, [])
  | req :: rest =>
      let r := handleRequest engine req
      let rr := handle_client r.1 rest
      (rr.1, r.2 :: rr.2)

/-- C7: the handler produces exactly one response per decoded request
— `Ok(value)` for a successful `get`, `Ok(None)` for a successful
`set`/`remove`, `Err(message)` for any engine error — and an engine
error never terminates the connection loop (every later request is
still answered). -/
theorem c7_server_responses (engine : KvStoreInner)
    (reqs : List Request) :
    ((handle_client engine reqs).2.length = reqs.length) ∧
    (∀ k value, engine.get k = .ok value →
        handleRequest engine (.Get k) = (engine, .Ok value)) ∧
    (∀ k e, engine.get k = .error e →
        handleRequest engine (.Get k) = (engine, .Err e.toMessage)) ∧
    (∀ k v, handleRequest engine (.Set k v)
        = (engine.set k v, .Ok none)) ∧
    (∀ k engine', engine.remove k = .ok engine' →
        handleRequest engine (.Remove k) = (engine', .Ok none)) ∧
    (∀ k e, engine.remove k = .error e →
        handleRequest engine (.Remove k) = (engine, .Err e.toMessage))
    := by
  refine ⟨?_, ?_, ?_, fun k v => rfl, ?_, ?_⟩
  · induction reqs generalizing engine with
    | nil => rfl
    | cons r rest ih => simp [handle_client, ih]
  · intro k value h
    simp [handleRequest, h]
  · intro k e h
    simp [handleRequest, h]
  · intro k engine' h
    simp [handleRequest, h]
  · intro k e h
    simp [handleRequest, h]

theorem c7_witness :
    handleRequest openFresh (.Remove "a")
      = (openFresh, .Err (KvsError.KeyNotFound).toMessage) ∧
    (handle_client openFresh
        [.Set "a" "b", .Remove "z", .Get "a"]).2.length = 3 := by
  constructor
  · exact (c7_server_responses openFresh []).2.2.2.2.2 "a" .KeyNotFound
      (by rfl)
  · exact (c7_server_responses openFresh
      [.Set "a" "b", .Remove "z", .Get "a"]).1

/-! ## Server bootstrap: engine selection (`src/bin/kvs-server.rs`) -/

/-- `enum Engine` of `src/engine/mod.rs`. -/
inductive Engine where
  | Kvs
  | Sled
  deriving DecidableEq, Repr

/-- `get_engine` of `src/bin/kvs-server.rs`, acting on the contents of
the `.engine` file (`none` when the file does not exist).  Returns the
chosen engine together with the file contents afterwards: with
`--engine e` it fails with `EngineMismatch` iff the file records a
different engine, otherwise it writes `e`; without `--engine` it reuses
a recorded engine, or writes and returns the default `Kvs`. -/
def get_engine (requested : Option Engine)
    (engineFile : Option Engine) :
    Except KvsError (Engine × Option Engine) :=
  match requested with
  | some e =>
      match engineFile with
      | some last =>
          if e ≠ last then .error .EngineMismatch else .ok (e, some e)
      | none => .ok (e, some e)
  | none =>
      match engineFile with
      | some last => .ok (last, some last)
      | none => .ok (.Kvs, some .Kvs)

/-- A data directory as the server bootstrap sees it: the log file and
the `.engine` marker file. -/
structure DataDir where
  wal : List Command
  engineFile : Option Engine
  deriving DecidableEq, Repr

/-- A fresh directory: empty log, no `.engine` file. -/
def freshDir : DataDir := { wal := [], engineFile := none }

/-- `KvStore::open` on a directory followed by one `set`.  The kvs
engine of `src/engine/kvs.rs` reads and writes only `wal.log`; no code
in it touches the `.engine` file, which only `get_engine` writes. -/
def kvsWriteOneKey (d : DataDir) (k v : String) : DataDir :=
  { d with wal := ((openLog d.wal).set k v).log }

/-- C8 counterexample: after a directly-opened kvs engine has written
one key to a fresh directory, starting the server with `--engine sled`
does **not** fail with `EngineMismatch`: `KvStore::open` never writes
the `.engine` file, so `get_engine` finds no recorded engine and
records `Sled` instead. -/
theorem c8_counterexample :
    get_engine (some .Sled)
        (kvsWriteOneKey freshDir "key1" "value1").engineFile
      = .ok (.Sled, some .Sled) ∧
    ¬(get_engine (some .Sled)
        (kvsWriteOneKey freshDir "key1" "value1").engineFile
      = .error .EngineMismatch) := by
  constructor
  · rfl
  · intro h
    exact absurd h (by simp [get_engine, kvsWriteOneKey, freshDir])

/-- C8 (amended): the server refuses to start with an explicit
`--engine x` exactly when the `.engine` file records a different
engine `y`; a directory written only by a directly-opened kvs engine
has no `.engine` file, so starting with `--engine sled` against it
succeeds (and records `Sled`) instead of failing. -/
theorem c8_engine_mismatch_amended (x y : Engine) (k v : String)
    (hxy : x ≠ y) :
    get_engine (some x) (some y) = .error .EngineMismatch ∧
    get_engine (some x) (some x) = .ok (x, some x) ∧
    (kvsWriteOneKey freshDir k v).engineFile = none ∧
    get_engine (some .Sled) ((kvsWriteOneKey freshDir k v).engineFile)
      = .ok (.Sled, some .Sled) := by
  refine ⟨by simp [get_engine, hxy], by simp [get_engine], rfl, rfl⟩

theorem c8_witness :
    get_engine (some .Sled) (some .Kvs) = .error .EngineMismatch ∧
    get_engine (some .Sled)
        ((kvsWriteOneKey freshDir "key1" "value1").engineFile)
      = .ok (.Sled, some .Sled) :=
  ⟨(c8_engine_mismatch_amended .Sled .Kvs "key1" "value1"
      (by decide)).1,
   (c8_engine_mismatch_amended .Sled .Kvs "key1" "value1"
      (by decide)).2.2.2⟩

/-! ## The worker pool (`src/thread_pool/shared_queue.rs`) -/

/-- A job's outcome when run: it returns normally or panics.
`panic::catch_unwind` in `Worker::new` absorbs either. -/
inductive JobOutcome where
  | completes
  | panics
  deriving DecidableEq, Repr

/-- `enum Message` of `src/thread_pool/shared_queue.rs`; each job
carries an id so what the worker ran is observable. -/
inductive Message where
  | NewJob (outcome : JobOutcome) (id : Nat)
  | Terminate
  deriving DecidableEq, Repr

/-- The loop of `Worker::new` over the messages this worker receives:
on `NewJob` run the job inside `catch_unwind` — the result is
discarded (`let _ = ...`), so the loop continues whether or not the
job panicked; on `Terminate`, or a closed channel (`Err`, the end of
the list), break.  Returns the ids of the jobs the worker ran. -/
def workerRun : List Message → List Nat
  | [] => []
  | .NewJob _ id :: rest => id :: workerRun rest
  | .Terminate :: _ => []

/-- The ids of all `NewJob` messages in a queue fragment. -/
def jobIds : List Message → List Nat
  | [] => []
  | .NewJob _ id :: rest => id :: jobIds rest
  | .Terminate :: rest => jobIds rest

/-- C9: a worker given a panicking job runs every job received before
it, runs the panicking job, survives, and processes the rest of its
message stream exactly as it otherwise would; job outcomes never
change which jobs a worker runs. -/
theorem c9_panic_isolation (pre post : List Message) (id : Nat)
    (hpre : ∀ m ∈ pre, m ≠ .Terminate) :
    workerRun (pre ++ .NewJob .panics id :: post)
      = jobIds pre ++ id :: workerRun post ∧
    workerRun (pre ++ .NewJob .panics id :: post)
      = workerRun (pre ++ .NewJob .completes id :: post) := by
  induction pre with
  | nil => exact ⟨rfl, rfl⟩
  | cons m pre' ih =>
      have hm : m ≠ .Terminate := hpre m (List.mem_cons_self m pre')
      have hrest : ∀ m' ∈ pre', m' ≠ .Terminate :=
        fun m' h' => hpre m' (List.mem_cons_of_mem m h')
      obtain ⟨ih1, ih2⟩ := ih hrest
      cases m with
      | Terminate => exact absurd rfl hm
      | NewJob o i =>
          constructor
          · show i :: workerRun (pre' ++ .NewJob .panics id :: post)
                = i :: (jobIds pre' ++ id :: workerRun post)
            rw [ih1]
          · show i :: workerRun (pre' ++ .NewJob .panics id :: post)
                = i :: workerRun (pre' ++ .NewJob .completes id :: post)
            rw [ih2]

theorem c9_witness :
    workerRun ([Message.NewJob .completes 0] ++ .NewJob .panics 1 ::
        [.NewJob .completes 2, .Terminate, .NewJob .completes 3])
      = [0, 1, 2] := by
  have h := (c9_panic_isolation [Message.NewJob .completes 0]
    [.NewJob .completes 2, .Terminate, .NewJob .completes 3] 1
    (by intro m hm; simp at hm; subst hm; decide)).1
  rw [h]
  rfl
